import Mathlib

set_option maxHeartbeats 1000000

/-!
Shallow embedding of the SvelteKit SSE boilerplate: the bounded-concurrency
processor processConcurrently and the GET stream endpoint from
src/SSE/server.ts, and the client helper streamData from the client snippet.

JavaScript is single-threaded and cooperative: an async function runs
synchronously up to its first await. We model a run of processConcurrently as
a state machine. The initial for loop runs the synchronous prefix of
processNext exactly concurrency times; afterwards the event loop
nondeterministically interleaves transform settlements, heartbeat timer
ticks, and (to model client disconnect) closure of the output channel. A
schedule (a list of Step values) fixes one such interleaving.
-/

/-- Wire chunks enqueued on the ReadableStream controller: a heartbeat
comment chunk, an item result string, the newline separator enqueued right
after a result, and the terminal end-of-stream event chunk. -/
inductive Chunk : Type
  | heartbeat
  | data (s : String)
  | sep
  | eos
deriving DecidableEq

/-- A rejection reason passed to the outer promise: either the value a
transform rejected with, or the TypeError thrown by enqueue on a closed
controller (both flow into the same reject call in the catch block). -/
inductive RunError (ε : Type) : Type
  | transformErr (e : ε)
  | sinkErr
deriving DecidableEq

/-- Settlement state of the promise returned by processConcurrently. -/
inductive PromiseState (ε : Type) : Type
  | pendingP
  | resolvedP
  | rejectedP (r : RunError ε)
deriving DecidableEq

/-- resolve of a JS promise: settles only if still pending. -/
def resolveP {ε : Type} : PromiseState ε → PromiseState ε
  | PromiseState.pendingP => PromiseState.resolvedP
  | p => p

/-- reject of a JS promise: settles only if still pending. -/
def rejectP {ε : Type} (r : RunError ε) : PromiseState ε → PromiseState ε
  | PromiseState.pendingP => PromiseState.rejectedP r
  | p => p

/-- The run state of processConcurrently.  queue and activePromises are the
mutable variables of the source; pending lists the items whose transform
call has been started but has not yet settled (in launch order); launched
records every dequeued item in dequeue order and completed every settled
item in settlement order; sink is the sequence of chunks enqueued so far on
the controller; timerActive is whether the heartbeat interval is still
scheduled and clears counts the clearInterval calls; sinkClosed models a
closed/errored controller (enqueue throws); crashed records that an
exception escaped uncaught from a processNext invocation. -/
structure PState (α ε : Type) : Type where
  queue : List α
  active : Nat
  pending : List α
  launched : List α
  completed : List α
  sink : List Chunk
  timerActive : Bool
  clears : Nat
  promise : PromiseState ε
  sinkClosed : Bool
  crashed : Bool
deriving DecidableEq

/-- The synchronous prefix of processNext (up to the await):
if the queue is empty and no transform is active, clear the heartbeat
interval, enqueue the end-of-stream chunk (an enqueue NOT wrapped in any
try/catch: on a closed controller it throws out of the async function,
an unhandled rejection) and resolve; otherwise return early when the queue
is empty or the concurrency cap is reached; otherwise shift the first item
off the queue, bump activePromises and start its transform. -/
def processNext {α ε : Type} (K : Nat) (s : PState α ε) : PState α ε :=
  match s.queue with
  | [] =>
    if s.active = 0 then
      if s.sinkClosed then
        { s with timerActive := false, clears := s.clears + 1, crashed := true }
      else
        { s with timerActive := false, clears := s.clears + 1,
                 sink := s.sink ++ [Chunk.eos], promise := resolveP s.promise }
    else s
  | i :: rest =>
    if K ≤ s.active then s
    else { s with queue := rest, active := s.active + 1,
                  pending := s.pending ++ [i], launched := s.launched ++ [i] }

/-- The chunks the try block enqueues for a settled transform: on
fulfillment with a truthy string on an open controller, the result string
and the newline separator; on fulfillment with null or an empty (falsy)
string nothing; on a closed controller the first enqueue throws so nothing
lands on the sink; on rejection the try block never reaches the enqueues. -/
def writeChunks {ε : Type} : Except ε (Option String) → Bool → List Chunk
  | Except.ok (some str), false => if str = "" then [] else [Chunk.data str, Chunk.sep]
  | _, _ => []

/-- The effect of the catch block on the outer promise for a settled
transform: a rejected transform rejects it with the transform's reason; a
fulfilled truthy result whose enqueue threw (closed controller) rejects it
with the enqueue TypeError; otherwise it is untouched. -/
def settlePromise {ε : Type} : Except ε (Option String) → Bool → PromiseState ε → PromiseState ε
  | Except.error e, _, p => rejectP (RunError.transformErr e) p
  | Except.ok (some str), true, p => if str = "" then p else rejectP RunError.sinkErr p
  | _, _, p => p

/-- Settlement of the in-flight transform at position k of pending: the
continuation after the await runs synchronously — the try block's enqueues,
the catch block's reject, and the finally block's decrement of
activePromises.  The finally block's trailing processNext call is composed
on top in completeTask. -/
def settleTask {α ε : Type} (tf : α → Except ε (Option String))
    (k : Nat) (item : α) (s : PState α ε) : PState α ε :=
  { s with pending := s.pending.eraseIdx k,
           completed := s.completed ++ [item],
           active := s.active - 1,
           sink := s.sink ++ writeChunks (tf item) s.sinkClosed,
           promise := settlePromise (tf item) s.sinkClosed s.promise }

def completeTask {α ε : Type} (K : Nat) (tf : α → Except ε (Option String))
    (k : Nat) (s : PState α ε) : PState α ε :=
  match s.pending[k]? with
  | none => s
  | some item => processNext K (settleTask tf k item s)

/-- One tick of the heartbeat interval: if the interval has not been
cleared, try to enqueue the comment chunk; on a closed controller the
enqueue throws and the catch block swallows the error (console.log only). -/
def tick {α ε : Type} (s : PState α ε) : PState α ε :=
  if s.timerActive then
    if s.sinkClosed then s
    else { s with sink := s.sink ++ [Chunk.heartbeat] }
  else s

/-- An event-loop step: settlement of the k-th in-flight transform, a
heartbeat timer tick, or closure of the output channel (client disconnect). -/
inductive Step : Type
  | complete (k : Nat)
  | tick
  | closeSink
deriving DecidableEq

def stepFn {α ε : Type} (K : Nat) (tf : α → Except ε (Option String))
    (s : PState α ε) : Step → PState α ε
  | Step.complete k => completeTask K tf k s
  | Step.tick => tick s
  | Step.closeSink => { s with sinkClosed := true }

/-- The state right after `const queue = [...items]; let activePromises = 0;`
and the setInterval call, before the Promise executor runs. -/
def initState {α ε : Type} (items : List α) : PState α ε :=
  { queue := items, active := 0, pending := [], launched := [], completed := [],
    sink := [], timerActive := true, clears := 0,
    promise := PromiseState.pendingP, sinkClosed := false, crashed := false }

/-- The state after the Promise executor's for loop has called processNext
concurrency times (each call runs synchronously up to its first await). -/
def initRun {α ε : Type} (K : Nat) (items : List α) : PState α ε :=
  (processNext K)^[K] (initState items)

/-- A whole run of processConcurrently: the synchronous start followed by
the event-loop interleaving given by the schedule. -/
def run {α ε : Type} (K : Nat) (tf : α → Except ε (Option String))
    (items : List α) (σ : List Step) : PState α ε :=
  σ.foldl (stepFn K tf) (initRun K items)

/-- The statement that no heartbeat chunk occurs after an end-of-stream
chunk in the sink trace. -/
def hbBeforeEos : List Chunk → Prop
  | [] => True
  | Chunk.eos :: t => Chunk.heartbeat ∉ t
  | _ :: t => hbBeforeEos t

/-- The core run invariant, preserved by every event-loop step: the
activePromises counter matches the in-flight list, the concurrency cap
holds, launched records a prefix of the input in input order with the queue
holding the rest, the bookkeeping lists are mutually consistent, and the
heartbeat facts hold (the timer is off once an end-of-stream chunk is on
the sink, and no heartbeat chunk ever follows an end-of-stream chunk). -/
structure SInv0 (K : Nat) {α ε : Type} (items : List α) (s : PState α ε) : Prop where
  act : s.active = s.pending.length
  bound : s.active ≤ K
  spl : s.launched ++ s.queue = items
  pendSub : ∀ a ∈ s.pending, a ∈ s.launched
  complSub : ∀ a ∈ s.completed, a ∈ s.launched
  complOrPend : ∀ a ∈ s.launched, a ∈ s.completed ∨ a ∈ s.pending
  timerEos : Chunk.eos ∈ s.sink → s.timerActive = false
  hbPos : hbBeforeEos s.sink

/-- The full run invariant: additionally, whenever no transform is in
flight the queue has been fully drained (each settlement refills a worker,
so the queue can never sit non-empty with zero active transforms). -/
structure SInv (K : Nat) {α ε : Type} (items : List α) (s : PState α ε)
    extends SInv0 K items s : Prop where
  drained : s.pending = [] → s.queue = []

/-- The step-independent part of the open-sink run invariant, for schedules
that never close the output channel: no write fails, every settled
non-empty result is on the sink, and a rejected outer promise can only stem
from some settled transform's rejection. -/
structure OInv0 {α ε : Type} (tf : α → Except ε (Option String)) (s : PState α ε) : Prop where
  openS : s.sinkClosed = false
  notCrashed : s.crashed = false
  written : ∀ a ∈ s.completed, ∀ str, tf a = Except.ok (some str) → str ≠ "" →
    Chunk.data str ∈ s.sink
  rejSrc : ∀ r, s.promise = PromiseState.rejectedP r →
    ∃ a ∈ s.completed, ∃ e, tf a = Except.error e ∧ r = RunError.transformErr e

/-- The full open-sink run invariant: additionally, once every launched
transform has settled the terminal end-of-stream chunk is on the sink. -/
structure OInv {α ε : Type} (tf : α → Except ε (Option String)) (s : PState α ε)
    extends OInv0 tf s : Prop where
  eosDrained : s.pending = [] → Chunk.eos ∈ s.sink

/-- The run invariant for a non-empty input list: before the terminal
check first fires some transform is always in flight and the timer has
never been cleared; afterwards everything is drained and the timer has been
cleared exactly once. -/
structure NEInv {α ε : Type} (s : PState α ε) : Prop where
  phaseC : (s.pending ≠ [] ∧ s.clears = 0 ∧ s.timerActive = true) ∨
    (s.pending = [] ∧ s.queue = [] ∧ s.clears = 1 ∧ s.timerActive = false)

/-- The open-sink invariant for a non-empty input list: the end-of-stream
chunk is absent while work remains, and afterwards it is the last chunk of
the sink, occurring exactly once, with the outer promise settled. -/
structure NEOInv {α ε : Type} (s : PState α ε) : Prop where
  phase : (Chunk.eos ∉ s.sink ∧ s.pending ≠ []) ∨
    (∃ ws, s.sink = ws ++ [Chunk.eos] ∧ Chunk.eos ∉ ws ∧ s.pending = [] ∧
      s.queue = [] ∧ s.promise ≠ PromiseState.pendingP)

/-- The rejection invariant: the outer promise is resolved only after all
work settled, and once some settled transform has rejected the outer
promise is (and stays) rejected. -/
structure RInv {α ε : Type} (tf : α → Except ε (Option String)) (s : PState α ε) : Prop where
  resPend : s.promise = PromiseState.resolvedP → s.pending = [] ∧ s.queue = []
  rejDone : ∀ a ∈ s.completed, ∀ e, tf a = Except.error e →
    ∃ r, s.promise = PromiseState.rejectedP r

/-- The state shape during the initial synchronous for loop once the first
worker has dequeued (non-empty input): work in flight, timer untouched,
nothing written, promise unsettled. -/
def earlyState {α ε : Type} (s : PState α ε) : Prop :=
  s.pending ≠ [] ∧ s.clears = 0 ∧ s.timerActive = true ∧ s.sink = [] ∧
  s.promise = PromiseState.pendingP

/-- The default processItem of the endpoint prefixes the item with the SSE
data field name; we reuse its shape for concrete scenarios (src line 83). -/
def tfEcho (i : String) : Except Unit (Option String) :=
  Except.ok (some ("data: " ++ i ++ "\n"))

/-- A transform that fulfills with null (nothing is written for the item). -/
def tfNull (_i : String) : Except Unit (Option String) :=
  Except.ok none

/-- A transform that rejects on the item a and echoes every other item. -/
def tfRejA (i : String) : Except Unit (Option String) :=
  if i = "a" then Except.error () else Except.ok (some ("data: " ++ i ++ "\n"))

/-! ## Session registry and the GET stream endpoint -/

/-- A session record as stored in the module-level sessions set: the
generated id and the submitted request body (the item list). -/
structure Session (α : Type) : Type where
  id : String
  body : List α
deriving DecidableEq

/-- The lookup in the GET handler: `[...sessions].find((s) => s.id === sessionId)`
with sessionId the (possibly absent) query parameter. -/
def findSession {α : Type} [DecidableEq α] (sessions : List (Session α))
    (sid : Option String) : Option (Session α) :=
  sessions.find? (fun s => decide (some s.id = sid))

/-- The GET handler's effect on the registry: on a missing session it throws
a 404 error; on success it opens the stream for the found session.  The
source never removes the session here — the registry is returned unchanged
in both cases. -/
def GEThandler {α : Type} [DecidableEq α] (sessions : List (Session α))
    (sid : Option String) : Except Nat (Session α) × List (Session α) :=
  match findSession sessions sid with
  | none => (Except.error 404, sessions)
  | some s => (Except.ok s, sessions)

/-- The cancel callback of the ReadableStream: `sessions.delete(session)`. -/
def cancelStream {α : Type} [DecidableEq α] (sessions : List (Session α))
    (s : Session α) : List (Session α) :=
  sessions.erase s

/-! ## Client subscriber (streamData) -/

/-- A parsed record as required by the client: it must expose a key field;
val stands for the rest of its caller-defined shape. -/
structure Rec (β : Type) : Type where
  key : String
  val : β
deriving DecidableEq

/-- JS Map.set semantics on an association list: replace the value at an
existing key in place, otherwise append the new binding at the end. -/
def mapSet {β : Type} : List (String × β) → String → β → List (String × β)
  | [], k, v => [(k, v)]
  | p :: t, k, v => if p.1 = k then (k, v) :: t else p :: mapSet t k v

/-- JS Map.get semantics on an association list. -/
def mapGet {β : Type} (m : List (String × β)) (k : String) : Option β :=
  match m.find? (fun p => decide (p.1 = k)) with
  | none => none
  | some p => some p.2

/-- The onmessage handler body of streamData for one incoming data message:
parse the payload first; only if parsing succeeds is store.update invoked,
upserting the record under its key.  If the parser throws, the exception
propagates out of the handler and the store is left untouched. -/
def streamStep {β ε : Type} (parseData : String → Except ε (Rec β))
    (m : List (String × Rec β)) (d : String) : List (String × Rec β) :=
  match parseData d with
  | Except.error _ => m
  | Except.ok r => mapSet m r.key r

/-- The keyed collection held by the store after streamData has handled the
given sequence of incoming data messages. -/
def streamData {β ε : Type} (parseData : String → Except ε (Rec β))
    (m0 : List (String × Rec β)) (msgs : List String) : List (String × Rec β) :=
  msgs.foldl (streamStep parseData) m0

/-- The most recent successfully parsed record with the given key among the
messages, if any (later messages take precedence). -/
def lastRec {β ε : Type} (parseData : String → Except ε (Rec β)) :
    List String → String → Option (Rec β)
  | [], _ => none
  | d :: t, q =>
    match lastRec parseData t q with
    | some r => some r
    | none =>
      match parseData d with
      | Except.ok r => if r.key = q then some r else none
      | Except.error _ => none

/-- A sample parser for the concrete client scenario: the three payloads
stand for the three example messages of the scenario. -/
def pdEx (d : String) : Except Unit (Rec Nat) :=
  if d = "x1" then Except.ok ⟨"x", 1⟩
  else if d = "x2" then Except.ok ⟨"x", 2⟩
  else if d = "y3" then Except.ok ⟨"y", 3⟩
  else Except.error ()

/-! ## Helper lemmas -/

theorem mem_eraseIdx_or {α : Type} {a : α} :
    ∀ (l : List α) (k : Nat), a ∈ l → a ∈ l.eraseIdx k ∨ l[k]? = some a := by
  intro l
  induction l with
  | nil => intro k h; cases h
  | cons b t ih =>
    intro k h
    cases k with
    | zero =>
      cases h with
      | head => exact Or.inr (by simp)
      | tail _ h2 => exact Or.inl (by simpa using h2)
    | succ k =>
      cases h with
      | head => exact Or.inl (by simp [List.eraseIdx])
      | tail _ h2 =>
        cases ih k h2 with
        | inl h3 =>
          exact Or.inl (by simp only [List.eraseIdx]; exact List.mem_cons_of_mem _ h3)
        | inr h3 => exact Or.inr (by simpa using h3)

theorem hbBeforeEos_append {l : List Chunk} {c : Chunk} (hc : c ≠ Chunk.heartbeat)
    (h : hbBeforeEos l) : hbBeforeEos (l ++ [c]) := by
  induction l with
  | nil =>
    cases c with
    | heartbeat => exact absurd rfl hc
    | eos => show Chunk.heartbeat ∉ ([] : List Chunk); simp
    | data s => exact trivial
    | sep => exact trivial
  | cons a t ih =>
    cases a with
    | eos =>
      have h2 : Chunk.heartbeat ∉ t := h
      show Chunk.heartbeat ∉ t ++ [c]
      intro hm
      rcases List.mem_append.mp hm with h3 | h3
      · exact h2 h3
      · exact hc (List.mem_singleton.mp h3).symm
    | heartbeat => exact ih h
    | data s => exact ih h
    | sep => exact ih h

theorem hbBeforeEos_append_no_hb {t : List Chunk} (ht : ∀ c ∈ t, c ≠ Chunk.heartbeat) :
    ∀ l : List Chunk, hbBeforeEos l → hbBeforeEos (l ++ t) := by
  induction t with
  | nil => intro l h; simpa using h
  | cons c t2 ih =>
    intro l h
    have : l ++ c :: t2 = (l ++ [c]) ++ t2 := by simp
    rw [this]
    exact ih (fun x hx => ht x (List.mem_cons_of_mem _ hx)) (l ++ [c])
      (hbBeforeEos_append (ht c (List.mem_cons_self _ _)) h)

theorem hbBeforeEos_append_hb {l : List Chunk} (h : Chunk.eos ∉ l) :
    hbBeforeEos (l ++ [Chunk.heartbeat]) := by
  induction l with
  | nil => exact trivial
  | cons a t ih =>
    cases a with
    | eos => exact absurd (List.mem_cons_self _ _) h
    | heartbeat => exact ih (fun hm => h (List.mem_cons_of_mem _ hm))
    | data s => exact ih (fun hm => h (List.mem_cons_of_mem _ hm))
    | sep => exact ih (fun hm => h (List.mem_cons_of_mem _ hm))

theorem writeChunks_no_hb {ε : Type} (r : Except ε (Option String)) (b : Bool) :
    ∀ c ∈ writeChunks r b, c ≠ Chunk.heartbeat := by
  match r, b with
  | Except.error e, _ => intro c hc; cases hc
  | Except.ok none, _ => intro c hc; cases hc
  | Except.ok (some str), true => intro c hc; cases hc
  | Except.ok (some str), false =>
    intro c hc
    by_cases hs : str = ""
    · simp [writeChunks, hs] at hc
    · simp [writeChunks, hs] at hc
      rcases hc with rfl | rfl <;> simp

theorem eos_not_mem_writeChunks {ε : Type} (r : Except ε (Option String)) (b : Bool) :
    Chunk.eos ∉ writeChunks r b := by
  match r, b with
  | Except.error e, _ => intro hc; cases hc
  | Except.ok none, _ => intro hc; cases hc
  | Except.ok (some str), true => intro hc; cases hc
  | Except.ok (some str), false =>
    intro hc
    by_cases hs : str = "" <;> simp [writeChunks, hs] at hc

theorem sinv0_processNext {α ε : Type} {K : Nat} {items : List α} {s : PState α ε}
    (h : SInv0 K items s) : SInv0 K items (processNext K s) := by
  obtain ⟨act, bound, spl, pendSub, complSub, cop, te, hp⟩ := h
  unfold processNext
  split
  next hq =>
    split
    next ha =>
      split
      next hc => exact ⟨act, bound, spl, pendSub, complSub, cop, fun _ => rfl, hp⟩
      next hc =>
        exact ⟨act, bound, spl, pendSub, complSub, cop, fun _ => rfl,
          hbBeforeEos_append (by simp) hp⟩
    next ha => exact ⟨act, bound, spl, pendSub, complSub, cop, te, hp⟩
  next i rest hq =>
    split
    next hK2 => exact ⟨act, bound, spl, pendSub, complSub, cop, te, hp⟩
    next hK2 =>
      refine ⟨?_, ?_, ?_, ?_, ?_, ?_, te, hp⟩
      · simp [act]
      · exact Nat.not_le.mp hK2
      · rw [List.append_assoc]
        show s.launched ++ (i :: rest) = items
        rw [← hq]
        exact spl
      · intro a ha2
        rcases List.mem_append.mp ha2 with h1 | h1
        · exact List.mem_append_left _ (pendSub a h1)
        · exact List.mem_append_right _ h1
      · intro a ha2
        exact List.mem_append_left _ (complSub a ha2)
      · intro a ha2
        rcases List.mem_append.mp ha2 with h1 | h1
        · rcases cop a h1 with h2 | h2
          · exact Or.inl h2
          · exact Or.inr (List.mem_append_left _ h2)
        · exact Or.inr (List.mem_append_right _ h1)

theorem pn_drained {α ε : Type} {K : Nat} {s : PState α ε} (hK : 0 < K)
    (hact : s.active = s.pending.length) :
    (processNext K s).pending = [] → (processNext K s).queue = [] := by
  unfold processNext
  split
  next hq =>
    split
    next ha =>
      split
      next hc => intro _; exact hq
      next hc => intro _; exact hq
    next ha => intro _; exact hq
  next i rest hq =>
    split
    next hK2 =>
      intro hpe
      have h0 : s.active = 0 := by rw [hact, hpe]; rfl
      omega
    next hK2 =>
      intro hpe
      simp at hpe

theorem sinv_processNext {α ε : Type} {K : Nat} {items : List α} {s : PState α ε}
    (hK : 0 < K) (h : SInv K items s) : SInv K items (processNext K s) :=
  ⟨sinv0_processNext h.toSInv0, pn_drained hK h.act⟩

theorem sinv0_settleTask {α ε : Type} {K : Nat} {items : List α} {s : PState α ε}
    {tf : α → Except ε (Option String)} {k : Nat} {item : α}
    (hp : s.pending[k]? = some item) (h : SInv0 K items s) :
    SInv0 K items (settleTask tf k item s) := by
  obtain ⟨act, bound, spl, pendSub, complSub, cop, te, hpos⟩ := h
  have hk : k < s.pending.length := (List.getElem?_eq_some_iff.mp hp).1
  have hitem : item ∈ s.pending := by
    obtain ⟨hlt, hget⟩ := List.getElem?_eq_some_iff.mp hp
    exact hget ▸ List.getElem_mem hlt
  refine ⟨?_, ?_, spl, ?_, ?_, ?_, ?_, ?_⟩
  · show s.active - 1 = (s.pending.eraseIdx k).length
    rw [List.length_eraseIdx, if_pos hk, act]
  · exact Nat.le_trans (Nat.sub_le _ _) bound
  · intro a ha2
    exact pendSub a (List.eraseIdx_subset _ _ ha2)
  · intro a ha2
    rcases List.mem_append.mp ha2 with h1 | h1
    · exact complSub a h1
    · rw [List.mem_singleton.mp h1]
      exact pendSub item hitem
  · intro a ha2
    rcases cop a ha2 with h1 | h1
    · exact Or.inl (List.mem_append_left _ h1)
    · rcases mem_eraseIdx_or s.pending k h1 with h2 | h2
      · exact Or.inr h2
      · have h3 : item = a := Option.some.inj (hp.symm.trans h2)
        refine Or.inl (List.mem_append_right _ ?_)
        rw [← h3]
        exact List.mem_singleton_self _
  · intro hm
    rcases List.mem_append.mp hm with h1 | h1
    · exact te h1
    · exact absurd h1 (eos_not_mem_writeChunks _ _)
  · exact hbBeforeEos_append_no_hb (writeChunks_no_hb _ _) _ hpos

theorem sinv_completeTask {α ε : Type} {K : Nat} {items : List α} {s : PState α ε}
    {tf : α → Except ε (Option String)} {k : Nat}
    (hK : 0 < K) (h : SInv K items s) : SInv K items (completeTask K tf k s) := by
  unfold completeTask
  split
  next => exact h
  next item hp =>
    have h0 : SInv0 K items (settleTask tf k item s) := sinv0_settleTask hp h.toSInv0
    exact ⟨sinv0_processNext h0, pn_drained hK h0.act⟩

theorem sinv_tick {α ε : Type} {K : Nat} {items : List α} {s : PState α ε}
    (h : SInv K items s) : SInv K items (tick s) := by
  obtain ⟨⟨act, bound, spl, pendSub, complSub, cop, te, hpos⟩, drained⟩ := h
  unfold tick
  split
  next ht =>
    split
    next => exact ⟨⟨act, bound, spl, pendSub, complSub, cop, te, hpos⟩, drained⟩
    next =>
      refine ⟨⟨act, bound, spl, pendSub, complSub, cop, ?_, ?_⟩, drained⟩
      · intro hm
        rcases List.mem_append.mp hm with h1 | h1
        · exact te h1
        · exact absurd (List.mem_singleton.mp h1) (by simp)
      · refine hbBeforeEos_append_hb ?_
        intro hm
        rw [te hm] at ht
        cases ht
  next => exact ⟨⟨act, bound, spl, pendSub, complSub, cop, te, hpos⟩, drained⟩

theorem sinv_closeSink {α ε : Type} {K : Nat} {items : List α} {s : PState α ε}
    (h : SInv K items s) : SInv K items { s with sinkClosed := true } := by
  obtain ⟨⟨act, bound, spl, pendSub, complSub, cop, te, hpos⟩, drained⟩ := h
  exact ⟨⟨act, bound, spl, pendSub, complSub, cop, te, hpos⟩, drained⟩

theorem sinv_stepFn {α ε : Type} {K : Nat} {items : List α} {s : PState α ε}
    {tf : α → Except ε (Option String)} (hK : 0 < K) (h : SInv K items s) (st : Step) :
    SInv K items (stepFn K tf s st) := by
  cases st with
  | complete k => exact sinv_completeTask hK h
  | tick => exact sinv_tick h
  | closeSink => exact sinv_closeSink h

theorem sinv0_iterate {α ε : Type} {K : Nat} {items : List α} :
    ∀ j : Nat, SInv0 K items (((processNext K : PState α ε → PState α ε))^[j] (initState items)) := by
  intro j
  induction j with
  | zero =>
    refine ⟨rfl, Nat.zero_le K, List.nil_append items, ?_, ?_, ?_, ?_, trivial⟩
    · intro a ha; cases ha
    · intro a ha; cases ha
    · intro a ha; cases ha
    · intro hm; cases hm
  | succ j ih =>
    rw [Function.iterate_succ_apply']
    exact sinv0_processNext ih

theorem sinv_initRun {α ε : Type} {K : Nat} {items : List α} (hK : 0 < K) :
    SInv K items ((initRun K items : PState α ε)) := by
  unfold initRun
  obtain ⟨K2, rfl⟩ : ∃ K2, K = K2 + 1 := ⟨K - 1, by omega⟩
  rw [Function.iterate_succ_apply']
  have h0 : SInv0 (K2 + 1) items
      (((processNext (K2 + 1) : PState α ε → PState α ε))^[K2] (initState items)) :=
    sinv0_iterate K2
  exact ⟨sinv0_processNext h0, pn_drained (by omega) h0.act⟩

theorem sinv_run {α ε : Type} {K : Nat} {tf : α → Except ε (Option String)}
    {items : List α} (hK : 0 < K) (σ : List Step) : SInv K items (run K tf items σ) := by
  unfold run
  have h0 : SInv K items ((initRun K items : PState α ε)) := sinv_initRun hK
  revert h0
  generalize (initRun K items : PState α ε) = s0
  revert s0
  induction σ with
  | nil => intro s hs; exact hs
  | cons st σ2 ih =>
    intro s hs
    rw [List.foldl_cons]
    exact ih _ (sinv_stepFn hK hs st)

theorem oinv0_processNext {α ε : Type} {K : Nat} {tf : α → Except ε (Option String)}
    {s : PState α ε} (h : OInv0 tf s) : OInv0 tf (processNext K s) := by
  obtain ⟨openS, notCrashed, written, rejSrc⟩ := h
  unfold processNext
  split
  next hq =>
    split
    next ha =>
      split
      next hc => rw [openS] at hc; cases hc
      next hc =>
        refine ⟨openS, notCrashed, ?_, ?_⟩
        · intro a ha2 str hstr hne
          exact List.mem_append_left _ (written a ha2 str hstr hne)
        · intro r hr
          have hr2 : s.promise = PromiseState.rejectedP r := by
            cases hpr : s.promise with
            | pendingP => rw [hpr] at hr; simp [resolveP] at hr
            | resolvedP => rw [hpr] at hr; simp [resolveP] at hr
            | rejectedP r2 =>
              rw [hpr] at hr
              exact hr
          exact rejSrc r hr2
    next ha => exact ⟨openS, notCrashed, written, rejSrc⟩
  next i rest hq =>
    split
    next => exact ⟨openS, notCrashed, written, rejSrc⟩
    next => exact ⟨openS, notCrashed, written, rejSrc⟩

theorem pn_eosDrained {α ε : Type} {K : Nat} {s : PState α ε} (hK : 0 < K)
    (hact : s.active = s.pending.length) (hopen : s.sinkClosed = false) :
    (processNext K s).pending = [] → Chunk.eos ∈ (processNext K s).sink := by
  unfold processNext
  split
  next hq =>
    split
    next ha =>
      split
      next hc => rw [hopen] at hc; cases hc
      next hc => intro _; exact List.mem_append_right _ (List.mem_singleton_self _)
    next ha =>
      intro hpe
      exact absurd (by rw [hact, hpe]; rfl) ha
  next i rest hq =>
    split
    next hK2 =>
      intro hpe
      have h0 : s.active = 0 := by rw [hact, hpe]; rfl
      omega
    next =>
      intro hpe
      simp at hpe

theorem oinv0_settleTask {α ε : Type} {tf : α → Except ε (Option String)}
    {k : Nat} {item : α} {s : PState α ε}
    (hp : s.pending[k]? = some item) (h : OInv0 tf s) :
    OInv0 tf (settleTask tf k item s) := by
  obtain ⟨openS, notCrashed, written, rejSrc⟩ := h
  refine ⟨openS, notCrashed, ?_, ?_⟩
  · intro a ha2 str hstr hne
    rcases List.mem_append.mp ha2 with h1 | h1
    · exact List.mem_append_left _ (written a h1 str hstr hne)
    · have h3 : a = item := List.mem_singleton.mp h1
      subst h3
      refine List.mem_append_right _ ?_
      rw [openS, hstr]
      simp [writeChunks, hne]
  · intro r hr
    show ∃ a ∈ s.completed ++ [item], ∃ e, tf a = Except.error e ∧ r = RunError.transformErr e
    simp only [settleTask] at hr
    rw [openS] at hr
    cases htf : tf item with
    | error e =>
      rw [htf] at hr
      have hr2 : rejectP (RunError.transformErr e) s.promise = PromiseState.rejectedP r := hr
      cases hpr : s.promise with
      | pendingP =>
        rw [hpr] at hr2
        have h4 : PromiseState.rejectedP (RunError.transformErr e) = PromiseState.rejectedP r := hr2
        have hre : RunError.transformErr e = r := PromiseState.rejectedP.inj h4
        exact ⟨item, List.mem_append_right _ (List.mem_singleton_self _), e, htf, hre.symm⟩
      | resolvedP =>
        rw [hpr] at hr2
        simp [rejectP] at hr2
      | rejectedP r2 =>
        rw [hpr] at hr2
        have h4 : PromiseState.rejectedP r2 = PromiseState.rejectedP r := hr2
        have hre : r2 = r := PromiseState.rejectedP.inj h4
        obtain ⟨a, hma, e2, hte, hr3⟩ := rejSrc r2 hpr
        exact ⟨a, List.mem_append_left _ hma, e2, hte, hre ▸ hr3⟩
    | ok o =>
      cases o with
      | none =>
        rw [htf] at hr
        have hr2 : s.promise = PromiseState.rejectedP r := hr
        obtain ⟨a, hma, e2, hte, hr3⟩ := rejSrc r hr2
        exact ⟨a, List.mem_append_left _ hma, e2, hte, hr3⟩
      | some str =>
        rw [htf] at hr
        have hr2 : s.promise = PromiseState.rejectedP r := hr
        obtain ⟨a, hma, e2, hte, hr3⟩ := rejSrc r hr2
        exact ⟨a, List.mem_append_left _ hma, e2, hte, hr3⟩

theorem tick_pending {α ε : Type} (s : PState α ε) : (tick s).pending = s.pending := by
  unfold tick
  split
  · split
    · rfl
    · rfl
  · rfl

theorem tick_sink_extend {α ε : Type} (s : PState α ε) : ∃ t, (tick s).sink = s.sink ++ t := by
  unfold tick
  split
  · split
    · exact ⟨[], by simp⟩
    · exact ⟨[Chunk.heartbeat], rfl⟩
  · exact ⟨[], by simp⟩

theorem oinv0_tick {α ε : Type} {tf : α → Except ε (Option String)} {s : PState α ε}
    (h : OInv0 tf s) : OInv0 tf (tick s) := by
  obtain ⟨openS, notCrashed, written, rejSrc⟩ := h
  unfold tick
  split
  next =>
    split
    next => exact ⟨openS, notCrashed, written, rejSrc⟩
    next =>
      refine ⟨openS, notCrashed, ?_, rejSrc⟩
      intro a ha2 str hstr hne
      exact List.mem_append_left _ (written a ha2 str hstr hne)
  next => exact ⟨openS, notCrashed, written, rejSrc⟩

theorem oinv_stepFn {α ε : Type} {K : Nat} {items : List α}
    {tf : α → Except ε (Option String)} {s : PState α ε} {st : Step}
    (hK : 0 < K) (hst : st ≠ Step.closeSink) (hs : SInv K items s) (h : OInv tf s) :
    OInv tf (stepFn K tf s st) := by
  cases st with
  | complete k =>
    show OInv tf (completeTask K tf k s)
    unfold completeTask
    split
    next => exact h
    next item hp =>
      have h0 : OInv0 tf (settleTask tf k item s) := oinv0_settleTask hp h.toOInv0
      have h1 : SInv0 K items (settleTask tf k item s) := sinv0_settleTask hp hs.toSInv0
      exact ⟨oinv0_processNext h0, pn_eosDrained hK h1.act h0.openS⟩
  | tick =>
    show OInv tf (tick s)
    refine ⟨oinv0_tick h.toOInv0, ?_⟩
    intro hpe
    rw [tick_pending] at hpe
    obtain ⟨t, ht⟩ := tick_sink_extend s
    rw [ht]
    exact List.mem_append_left _ (h.eosDrained hpe)
  | closeSink => exact absurd rfl hst

theorem oinv0_iterate {α ε : Type} {K : Nat} {tf : α → Except ε (Option String)}
    {items : List α} :
    ∀ j : Nat, OInv0 tf (((processNext K : PState α ε → PState α ε))^[j] (initState items)) := by
  intro j
  induction j with
  | zero =>
    refine ⟨rfl, rfl, ?_, ?_⟩
    · intro a ha; cases ha
    · intro r hr; simp [initState] at hr
  | succ j ih =>
    rw [Function.iterate_succ_apply']
    exact oinv0_processNext ih

theorem oinv_initRun {α ε : Type} {K : Nat} {tf : α → Except ε (Option String)}
    {items : List α} (hK : 0 < K) : OInv tf ((initRun K items : PState α ε)) := by
  unfold initRun
  obtain ⟨K2, rfl⟩ : ∃ K2, K = K2 + 1 := ⟨K - 1, by omega⟩
  rw [Function.iterate_succ_apply']
  have h0 : OInv0 tf (((processNext (K2 + 1) : PState α ε → PState α ε))^[K2] (initState items)) :=
    oinv0_iterate K2
  have h1 : SInv0 (K2 + 1) items
      (((processNext (K2 + 1) : PState α ε → PState α ε))^[K2] (initState items)) :=
    sinv0_iterate K2
  exact ⟨oinv0_processNext h0, pn_eosDrained (by omega) h1.act h0.openS⟩

theorem soinv_run {α ε : Type} {K : Nat} {tf : α → Except ε (Option String)}
    {items : List α} (hK : 0 < K) (σ : List Step) (hσ : Step.closeSink ∉ σ) :
    SInv K items (run K tf items σ) ∧ OInv tf (run K tf items σ) := by
  unfold run
  suffices h : ∀ (τ : List Step) (s : PState α ε), Step.closeSink ∉ τ → SInv K items s →
      OInv tf s → SInv K items (τ.foldl (stepFn K tf) s) ∧ OInv tf (τ.foldl (stepFn K tf) s) by
    exact h σ _ hσ (sinv_initRun hK) (oinv_initRun hK)
  intro τ
  induction τ with
  | nil => intro s _ h0 h1; exact ⟨h0, h1⟩
  | cons st σ2 ih =>
    intro s hσ2 h0 h1
    rw [List.foldl_cons]
    have hst : st ≠ Step.closeSink := fun he => hσ2 (he ▸ List.mem_cons_self _ _)
    exact ih _ (fun hm => hσ2 (List.mem_cons_of_mem _ hm)) (sinv_stepFn hK h0 st)
      (oinv_stepFn hK hst h0 h1)

theorem early_step {α ε : Type} {K : Nat} {s : PState α ε}
    (hact : s.active = s.pending.length) (h : earlyState s) :
    earlyState (processNext K s) := by
  obtain ⟨hpe, hcl, hti, hsi, hpr⟩ := h
  unfold processNext
  split
  next hq =>
    split
    next ha => exact absurd (List.length_eq_zero.mp (hact ▸ ha)) hpe
    next ha => exact ⟨hpe, hcl, hti, hsi, hpr⟩
  next i rest hq =>
    split
    next => exact ⟨hpe, hcl, hti, hsi, hpr⟩
    next => exact ⟨by simp, hcl, hti, hsi, hpr⟩

theorem early_init {α ε : Type} {K : Nat} (hK : 0 < K) (i0 : α) (r : List α) :
    ∀ j, earlyState ((processNext K)^[j]
      (processNext K (initState (i0 :: r) : PState α ε))) := by
  intro j
  induction j with
  | zero =>
    have hKle : ¬ K ≤ 0 := by omega
    simp only [Function.iterate_zero, id]
    refine ⟨?_, ?_, ?_, ?_, ?_⟩ <;> simp [processNext, initState, hKle]
  | succ j ih =>
    rw [Function.iterate_succ_apply']
    have hs : SInv0 K (i0 :: r)
        (((processNext K : PState α ε → PState α ε))^[j + 1] (initState (i0 :: r))) :=
      sinv0_iterate (j + 1)
    rw [Function.iterate_succ_apply] at hs
    exact early_step hs.act ih

theorem early_initRun {α ε : Type} {K : Nat} (hK : 0 < K) (i0 : α) (r : List α) :
    earlyState ((initRun K (i0 :: r) : PState α ε)) := by
  unfold initRun
  obtain ⟨K2, rfl⟩ : ∃ K2, K = K2 + 1 := ⟨K - 1, by omega⟩
  rw [Function.iterate_succ_apply]
  exact early_init (by omega) i0 r K2

theorem resolveP_ne_pendingP {ε : Type} (p : PromiseState ε) :
    resolveP p ≠ PromiseState.pendingP := by
  cases p <;> simp [resolveP]

theorem neinv_stepFn {α ε : Type} {K : Nat} {items : List α}
    {tf : α → Except ε (Option String)} {s : PState α ε} (hK : 0 < K)
    (hs : SInv K items s) (h : NEInv s) (st : Step) : NEInv (stepFn K tf s st) := by
  cases st with
  | closeSink =>
    obtain ⟨hph⟩ := h
    exact ⟨hph⟩
  | tick =>
    show NEInv (tick s)
    obtain ⟨hph⟩ := h
    unfold tick
    split
    · split
      · exact ⟨hph⟩
      · exact ⟨hph⟩
    · exact ⟨hph⟩
  | complete k =>
    show NEInv (completeTask K tf k s)
    unfold completeTask
    split
    next => exact h
    next item hp =>
      obtain ⟨hph⟩ := h
      rcases hph with ⟨hpe, hcl, hti⟩ | ⟨hpe, hq, hcl, hti⟩
      · have hsettle : SInv0 K items (settleTask tf k item s) := sinv0_settleTask hp hs.toSInv0
        unfold processNext
        split
        next hq2 =>
          split
          next ha =>
            have hpl : (settleTask tf k item s).pending.length = 0 := by
              rw [← hsettle.act]; exact ha
            have hpe2 : (settleTask tf k item s).pending = [] := List.length_eq_zero.mp hpl
            split
            next hc =>
              refine ⟨Or.inr ⟨hpe2, hq2, ?_, rfl⟩⟩
              show (settleTask tf k item s).clears + 1 = 1
              have h2 : (settleTask tf k item s).clears = s.clears := rfl
              rw [h2, hcl]
            next hc =>
              refine ⟨Or.inr ⟨hpe2, hq2, ?_, rfl⟩⟩
              show (settleTask tf k item s).clears + 1 = 1
              have h2 : (settleTask tf k item s).clears = s.clears := rfl
              rw [h2, hcl]
          next ha =>
            refine ⟨Or.inl ⟨?_, hcl, hti⟩⟩
            intro he
            exact ha (by rw [hsettle.act, he]; rfl)
        next i rest hq2 =>
          split
          next hK2 =>
            refine ⟨Or.inl ⟨?_, hcl, hti⟩⟩
            intro he
            have h0 : (settleTask tf k item s).active = 0 := by rw [hsettle.act, he]; rfl
            omega
          next hK2 =>
            exact ⟨Or.inl ⟨by simp, hcl, hti⟩⟩
      · rw [hpe] at hp
        simp at hp

theorem neoinv_stepFn {α ε : Type} {K : Nat} {items : List α}
    {tf : α → Except ε (Option String)} {s : PState α ε} {st : Step} (hK : 0 < K)
    (hst : st ≠ Step.closeSink) (hs : SInv K items s) (ho : OInv tf s) (h : NEOInv s) :
    NEOInv (stepFn K tf s st) := by
  cases st with
  | closeSink => exact absurd rfl hst
  | tick =>
    show NEOInv (tick s)
    obtain ⟨hph⟩ := h
    rcases hph with ⟨hni, hpe⟩ | ⟨ws, hsink, hwse, hpe, hq, hpr⟩
    · unfold tick
      split
      next hti =>
        split
        next hc => exact ⟨Or.inl ⟨hni, hpe⟩⟩
        next hc =>
          refine ⟨Or.inl ⟨?_, hpe⟩⟩
          intro hm
          rcases List.mem_append.mp hm with h1 | h1
          · exact hni h1
          · exact absurd (List.mem_singleton.mp h1) (by simp)
      next hti => exact ⟨Or.inl ⟨hni, hpe⟩⟩
    · have hti : s.timerActive = false :=
        hs.timerEos (by rw [hsink]; exact List.mem_append_right _ (List.mem_singleton_self _))
      have heq : tick s = s := by simp [tick, hti]
      rw [heq]
      exact ⟨Or.inr ⟨ws, hsink, hwse, hpe, hq, hpr⟩⟩
  | complete k =>
    show NEOInv (completeTask K tf k s)
    unfold completeTask
    split
    next => exact h
    next item hp =>
      obtain ⟨hph⟩ := h
      rcases hph with ⟨hni, hpe⟩ | ⟨ws, hsink, hwse, hpe2, hq, hpr⟩
      · have hsettle : SInv0 K items (settleTask tf k item s) := sinv0_settleTask hp hs.toSInv0
        have hni2 : Chunk.eos ∉ (settleTask tf k item s).sink := by
          show Chunk.eos ∉ s.sink ++ writeChunks (tf item) s.sinkClosed
          intro hm
          rcases List.mem_append.mp hm with h1 | h1
          · exact hni h1
          · exact eos_not_mem_writeChunks _ _ h1
        unfold processNext
        split
        next hq2 =>
          split
          next ha =>
            split
            next hc =>
              have h2 : s.sinkClosed = true := hc
              rw [ho.openS] at h2
              cases h2
            next hc =>
              refine ⟨Or.inr ⟨(settleTask tf k item s).sink, rfl, hni2, ?_, hq2,
                resolveP_ne_pendingP _⟩⟩
              have hpl : (settleTask tf k item s).pending.length = 0 := by
                rw [← hsettle.act]; exact ha
              exact List.length_eq_zero.mp hpl
          next ha =>
            refine ⟨Or.inl ⟨hni2, ?_⟩⟩
            intro he
            exact ha (by rw [hsettle.act, he]; rfl)
        next i rest hq2 =>
          split
          next hK2 =>
            refine ⟨Or.inl ⟨hni2, ?_⟩⟩
            intro he
            have h0 : (settleTask tf k item s).active = 0 := by rw [hsettle.act, he]; rfl
            omega
          next hK2 =>
            exact ⟨Or.inl ⟨hni2, by simp⟩⟩
      · rw [hpe2] at hp
        simp at hp

theorem neinv_run {α ε : Type} {K : Nat} {tf : α → Except ε (Option String)}
    (hK : 0 < K) (i0 : α) (r : List α) (σ : List Step) :
    NEInv (run K tf (i0 :: r) σ) := by
  unfold run
  suffices h : ∀ (τ : List Step) (s : PState α ε), SInv K (i0 :: r) s → NEInv s →
      NEInv (τ.foldl (stepFn K tf) s) by
    have he : earlyState ((initRun K (i0 :: r) : PState α ε)) := early_initRun hK i0 r
    exact h σ _ (sinv_initRun hK) ⟨Or.inl ⟨he.1, he.2.1, he.2.2.1⟩⟩
  intro τ
  induction τ with
  | nil => intro s _ h1; exact h1
  | cons st σ2 ih =>
    intro s h0 h1
    rw [List.foldl_cons]
    exact ih _ (sinv_stepFn hK h0 st) (neinv_stepFn hK h0 h1 st)

theorem neoinv_run {α ε : Type} {K : Nat} {tf : α → Except ε (Option String)}
    (hK : 0 < K) (i0 : α) (r : List α) (σ : List Step) (hσ : Step.closeSink ∉ σ) :
    NEOInv (run K tf (i0 :: r) σ) := by
  unfold run
  suffices h : ∀ (τ : List Step) (s : PState α ε), Step.closeSink ∉ τ → SInv K (i0 :: r) s →
      OInv tf s → NEOInv s → NEOInv (τ.foldl (stepFn K tf) s) by
    have he : earlyState ((initRun K (i0 :: r) : PState α ε)) := early_initRun hK i0 r
    exact h σ _ hσ (sinv_initRun hK) (oinv_initRun hK)
      ⟨Or.inl ⟨by rw [he.2.2.2.1]; exact List.not_mem_nil _, he.1⟩⟩
  intro τ
  induction τ with
  | nil => intro s _ _ _ h1; exact h1
  | cons st σ2 ih =>
    intro s hσ2 h0 ho h1
    rw [List.foldl_cons]
    have hst : st ≠ Step.closeSink := fun heq => hσ2 (heq ▸ List.mem_cons_self _ _)
    exact ih _ (fun hm => hσ2 (List.mem_cons_of_mem _ hm)) (sinv_stepFn hK h0 st)
      (oinv_stepFn hK hst h0 ho) (neoinv_stepFn hK hst h0 ho h1)

theorem settlePromise_eq_resolved {ε : Type} (x : Except ε (Option String)) (b : Bool)
    (p : PromiseState ε) (h : settlePromise x b p = PromiseState.resolvedP) :
    p = PromiseState.resolvedP := by
  cases x with
  | error e => cases p <;> simpa [settlePromise, rejectP] using h
  | ok o =>
    cases o with
    | none => exact h
    | some str =>
      cases b with
      | false => exact h
      | true =>
        by_cases hs : str = ""
        · simpa [settlePromise, hs] using h
        · cases p <;> simpa [settlePromise, rejectP, hs] using h

theorem settlePromise_rejected {ε : Type} (x : Except ε (Option String)) (b : Bool)
    (r : RunError ε) :
    settlePromise x b (PromiseState.rejectedP r) = PromiseState.rejectedP r := by
  cases x with
  | error e => rfl
  | ok o =>
    cases o with
    | none => rfl
    | some str =>
      cases b with
      | false => rfl
      | true => by_cases hs : str = "" <;> simp [settlePromise, rejectP, hs]

theorem pn_completed {α ε : Type} (K : Nat) (s : PState α ε) :
    (processNext K s).completed = s.completed := by
  unfold processNext
  split
  · split
    · split
      · rfl
      · rfl
    · rfl
  · split
    · rfl
    · rfl

theorem pn_nil_queue {α ε : Type} {K : Nat} {s : PState α ε} (hq : s.queue = []) :
    (processNext K s).pending = s.pending ∧ (processNext K s).queue = [] := by
  unfold processNext
  split
  next hq2 =>
    split
    · split
      · exact ⟨rfl, hq⟩
      · exact ⟨rfl, hq⟩
    · exact ⟨rfl, hq⟩
  next i rest hq2 =>
    rw [hq] at hq2
    cases hq2

theorem initRun_completed {α ε : Type} {K : Nat} {items : List α} :
    ((initRun K items : PState α ε)).completed = [] := by
  unfold initRun
  suffices h : ∀ j, (((processNext K : PState α ε → PState α ε))^[j]
      (initState items)).completed = [] from h K
  intro j
  induction j with
  | zero => rfl
  | succ j ih => rw [Function.iterate_succ_apply', pn_completed]; exact ih

theorem initRun_nil_pending {α ε : Type} {K : Nat} :
    ((initRun K ([] : List α) : PState α ε)).pending = [] ∧
    ((initRun K ([] : List α) : PState α ε)).queue = [] := by
  unfold initRun
  suffices h : ∀ j, (((processNext K : PState α ε → PState α ε))^[j]
      (initState ([] : List α))).pending = [] ∧
      (((processNext K : PState α ε → PState α ε))^[j] (initState ([] : List α))).queue = []
    from h K
  intro j
  induction j with
  | zero => exact ⟨rfl, rfl⟩
  | succ j ih =>
    rw [Function.iterate_succ_apply']
    obtain ⟨h1, h2⟩ := ih
    obtain ⟨h3, h4⟩ := pn_nil_queue h2
    exact ⟨h3.trans h1, h4⟩

theorem rinv_initRun {α ε : Type} {K : Nat} {tf : α → Except ε (Option String)}
    {items : List α} (hK : 0 < K) : RInv tf ((initRun K items : PState α ε)) := by
  constructor
  · cases items with
    | nil => intro _; exact initRun_nil_pending
    | cons i0 r =>
      intro hres
      have he : earlyState ((initRun K (i0 :: r) : PState α ε)) := early_initRun hK i0 r
      rw [he.2.2.2.2] at hres
      exact absurd hres (by simp)
  · intro a hma e hte
    rw [initRun_completed] at hma
    cases hma

theorem rinv_processNext {α ε : Type} {K : Nat} {tf : α → Except ε (Option String)}
    {s : PState α ε} (hact : s.active = s.pending.length) (h : RInv tf s) :
    RInv tf (processNext K s) := by
  obtain ⟨resPend, rejDone⟩ := h
  unfold processNext
  split
  next hq =>
    split
    next ha =>
      have hpe : s.pending = [] := List.length_eq_zero.mp (by rw [← hact]; exact ha)
      split
      next hc => exact ⟨fun _ => ⟨hpe, hq⟩, fun a hma e hte => rejDone a hma e hte⟩
      next hc =>
        refine ⟨fun _ => ⟨hpe, hq⟩, ?_⟩
        intro a hma e hte
        obtain ⟨r, hr⟩ := rejDone a hma e hte
        exact ⟨r, by rw [hr]; rfl⟩
    next ha => exact ⟨resPend, rejDone⟩
  next i rest hq =>
    split
    next => exact ⟨resPend, rejDone⟩
    next =>
      refine ⟨?_, fun a hma e hte => rejDone a hma e hte⟩
      intro hres
      have h2 := (resPend hres).2
      rw [h2] at hq
      cases hq

theorem rinv_settleTask {α ε : Type} {tf : α → Except ε (Option String)}
    {k : Nat} {item : α} {s : PState α ε}
    (hp : s.pending[k]? = some item) (h : RInv tf s) :
    RInv tf (settleTask tf k item s) := by
  obtain ⟨resPend, rejDone⟩ := h
  constructor
  · intro hres
    have hres2 : settlePromise (tf item) s.sinkClosed s.promise = PromiseState.resolvedP := hres
    have hp2 : s.promise = PromiseState.resolvedP := settlePromise_eq_resolved _ _ _ hres2
    have hpe := (resPend hp2).1
    rw [hpe] at hp
    simp at hp
  · intro a hma e hte
    show ∃ r, settlePromise (tf item) s.sinkClosed s.promise = PromiseState.rejectedP r
    rcases List.mem_append.mp hma with h1 | h1
    · obtain ⟨r, hr⟩ := rejDone a h1 e hte
      exact ⟨r, by rw [hr, settlePromise_rejected]⟩
    · have h3 : a = item := List.mem_singleton.mp h1
      subst h3
      rw [hte]
      cases hpr : s.promise with
      | pendingP => exact ⟨RunError.transformErr e, rfl⟩
      | resolvedP =>
        have hpe := (resPend hpr).1
        rw [hpe] at hp
        simp at hp
      | rejectedP r => exact ⟨r, rfl⟩

theorem rinv_stepFn {α ε : Type} {K : Nat} {items : List α}
    {tf : α → Except ε (Option String)} {s : PState α ε}
    (hs : SInv K items s) (h : RInv tf s) (st : Step) : RInv tf (stepFn K tf s st) := by
  cases st with
  | complete k =>
    show RInv tf (completeTask K tf k s)
    unfold completeTask
    split
    next => exact h
    next item hp =>
      have h1 : SInv0 K items (settleTask tf k item s) := sinv0_settleTask hp hs.toSInv0
      exact rinv_processNext h1.act (rinv_settleTask hp h)
  | tick =>
    show RInv tf (tick s)
    obtain ⟨resPend, rejDone⟩ := h
    unfold tick
    split
    · split
      · exact ⟨resPend, rejDone⟩
      · exact ⟨resPend, rejDone⟩
    · exact ⟨resPend, rejDone⟩
  | closeSink =>
    obtain ⟨resPend, rejDone⟩ := h
    exact ⟨resPend, rejDone⟩

theorem rinv_run {α ε : Type} {K : Nat} {tf : α → Except ε (Option String)}
    {items : List α} (hK : 0 < K) (σ : List Step) : RInv tf (run K tf items σ) := by
  unfold run
  suffices h : ∀ (τ : List Step) (s : PState α ε), SInv K items s → RInv tf s →
      RInv tf (τ.foldl (stepFn K tf) s) by
    exact h σ _ (sinv_initRun hK) (rinv_initRun hK)
  intro τ
  induction τ with
  | nil => intro s _ h1; exact h1
  | cons st σ2 ih =>
    intro s h0 h1
    rw [List.foldl_cons]
    exact ih _ (sinv_stepFn hK h0 st) (rinv_stepFn h0 h1 st)

theorem mapGet_nil {β : Type} (q : String) : mapGet ([] : List (String × β)) q = none := rfl

theorem mapGet_cons {β : Type} (x : String × β) (t : List (String × β)) (q : String) :
    mapGet (x :: t) q = if x.1 = q then some x.2 else mapGet t q := by
  by_cases hx : x.1 = q
  · simp [mapGet, List.find?, hx]
  · simp [mapGet, List.find?, hx]

theorem mapGet_mapSet {β : Type} (m : List (String × β)) (k q : String) (v : β) :
    mapGet (mapSet m k v) q = if q = k then some v else mapGet m q := by
  induction m with
  | nil =>
    by_cases hq : q = k
    · subst hq; simp [mapSet, mapGet, List.find?]
    · simp [mapSet, mapGet, List.find?, hq, Ne.symm hq]
  | cons p t ih =>
    by_cases hp : p.1 = k
    · by_cases hq : q = k
      · subst hq
        rw [show mapSet (p :: t) q v = (q, v) :: t from by simp [mapSet, hp], mapGet_cons]
        simp
      · rw [show mapSet (p :: t) k v = (k, v) :: t from by simp [mapSet, hp], mapGet_cons,
          if_neg (Ne.symm hq), if_neg hq, mapGet_cons, if_neg (by rw [hp]; exact Ne.symm hq)]
    · by_cases hq2 : p.1 = q
      · have hqk : ¬(q = k) := fun h => hp (hq2.trans h)
        rw [show mapSet (p :: t) k v = p :: mapSet t k v from by simp [mapSet, hp]]
        rw [mapGet_cons, if_pos hq2, if_neg hqk, mapGet_cons, if_pos hq2]
      · rw [show mapSet (p :: t) k v = p :: mapSet t k v from by simp [mapSet, hp]]
        rw [mapGet_cons, if_neg hq2, ih]
        by_cases hq : q = k
        · rw [if_pos hq, if_pos hq]
        · rw [if_neg hq, if_neg hq, mapGet_cons, if_neg hq2]

theorem streamData_get {β ε : Type} (parseData : String → Except ε (Rec β))
    (msgs : List String) :
    ∀ (m0 : List (String × Rec β)) (q : String),
      mapGet (streamData parseData m0 msgs) q =
        match lastRec parseData msgs q with
        | some r => some r
        | none => mapGet m0 q := by
  induction msgs with
  | nil => intro m0 q; rfl
  | cons d t ih =>
    intro m0 q
    have hfold : streamData parseData m0 (d :: t) =
        streamData parseData (streamStep parseData m0 d) t := by
      unfold streamData
      rw [List.foldl_cons]
    rw [hfold, ih]
    cases hl : lastRec parseData t q with
    | some r => simp [lastRec, hl]
    | none =>
      cases hpd : parseData d with
      | error e => simp [lastRec, hl, hpd, streamStep]
      | ok r =>
        by_cases hk : r.key = q
        · simp [lastRec, hl, hpd, hk, streamStep, mapGet_mapSet]
        · simp [lastRec, hl, hpd, hk, streamStep, mapGet_mapSet, Ne.symm hk]

theorem writeChunks_closed {ε : Type} (r : Except ε (Option String)) :
    writeChunks r true = [] := by
  cases r with
  | error e => rfl
  | ok o =>
    cases o with
    | none => rfl
    | some str => rfl

theorem pn_sink_closed {α ε : Type} {K : Nat} {s : PState α ε} (h : s.sinkClosed = true) :
    (processNext K s).sink = s.sink := by
  unfold processNext
  split
  next =>
    by_cases ha : s.active = 0
    · rw [if_pos ha, if_pos h]
    · rw [if_neg ha]
  next i rest hq =>
    by_cases hKa : K ≤ s.active
    · rw [if_pos hKa]
    · rw [if_neg hKa]

theorem tick_closed {α ε : Type} (s : PState α ε) (h : s.sinkClosed = true) : tick s = s := by
  unfold tick
  by_cases ht : s.timerActive = true
  · rw [if_pos ht, if_pos h]
  · rw [if_neg ht]

theorem completeTask_closed_sink {α ε : Type} (K : Nat) (tf : α → Except ε (Option String))
    (k : Nat) (s : PState α ε) (h : s.sinkClosed = true) :
    (completeTask K tf k s).sink = s.sink := by
  unfold completeTask
  split
  next => rfl
  next item hp =>
    have h2 : (settleTask tf k item s).sinkClosed = true := h
    rw [pn_sink_closed h2]
    show s.sink ++ writeChunks (tf item) s.sinkClosed = s.sink
    rw [h, writeChunks_closed]
    simp

/-! ## Claim theorems -/

/-- C1: for every item list and positive concurrency K, and every event-loop
interleaving, the number of in-flight transforms (activePromises) never
exceeds K — during the initial synchronous for loop and at every step of
the run — and once every launched transform has settled, the list of
dequeued items is exactly the input list: the transform is invoked exactly
once per item, with no duplication and no starvation. -/
theorem processConcurrently_exactly_once_bounded {α ε : Type} (items : List α) (K : Nat)
    (tf : α → Except ε (Option String)) (σ : List Step) (hK : 0 < K) :
    (∀ j : Nat, (((processNext K : PState α ε → PState α ε))^[j] (initState items)).active ≤ K) ∧
    (run K tf items σ).active ≤ K ∧
    ((run K tf items σ).pending = [] → (run K tf items σ).launched = items) := by
  have hs : SInv K items (run K tf items σ) := sinv_run hK σ
  refine ⟨fun j => (sinv0_iterate j).bound, hs.bound, ?_⟩
  intro hpe
  have hq := hs.drained hpe
  have hspl := hs.spl
  rw [hq] at hspl
  simpa using hspl

/-- C1 witness: a concrete run with one item and concurrency 1. -/
theorem processConcurrently_exactly_once_bounded_witness :
    0 < 1 ∧
    ((∀ j : Nat, (((processNext 1 : PState String Unit → PState String Unit))^[j]
        (initState ["a"])).active ≤ 1) ∧
      (run 1 tfEcho ["a"] [Step.complete 0]).active ≤ 1 ∧
      ((run 1 tfEcho ["a"] [Step.complete 0]).pending = [] →
        (run 1 tfEcho ["a"] [Step.complete 0]).launched = ["a"])) :=
  ⟨by decide, processConcurrently_exactly_once_bounded ["a"] 1 tfEcho [Step.complete 0] (by decide)⟩

/-- C2 counterexample: with an empty item list and concurrency 2, the run
resolves successfully but TWO end-of-stream chunks are enqueued (one per
initial worker), refuting the claim that exactly one terminal chunk is
enqueued even when the input item list is empty. -/
theorem endOfStream_duplicated_on_empty_input :
    (run 2 tfNull ([] : List String) []).promise = PromiseState.resolvedP ∧
    (run 2 tfNull ([] : List String) []).sink = [Chunk.eos, Chunk.eos] := by decide

/-- C2 amended: for a NON-EMPTY item list, on a successful run (no transform
rejects, the channel stays open) with all transforms settled, the promise
resolves and the terminal end-of-stream chunk is the last chunk of the
sink, occurring exactly once, after every item's non-empty result. -/
theorem endOfStream_exactly_once_nonempty_input {α ε : Type} (items : List α) (K : Nat)
    (tf : α → Except ε (Option String)) (σ : List Step) (hK : 0 < K) (hne : items ≠ [])
    (hσ : Step.closeSink ∉ σ) (hok : ∀ a ∈ items, (tf a).isOk = true)
    (hpe : (run K tf items σ).pending = []) :
    (run K tf items σ).promise = PromiseState.resolvedP ∧
    ∃ ws, (run K tf items σ).sink = ws ++ [Chunk.eos] ∧ Chunk.eos ∉ ws ∧
      ∀ a ∈ items, ∀ str, tf a = Except.ok (some str) → str ≠ "" → Chunk.data str ∈ ws := by
  obtain ⟨i0, r, rfl⟩ : ∃ i0 r, items = i0 :: r := by
    cases items with
    | nil => exact absurd rfl hne
    | cons a b => exact ⟨a, b, rfl⟩
  have hs : SInv K (i0 :: r) (run K tf (i0 :: r) σ) := sinv_run hK σ
  have ho : OInv tf (run K tf (i0 :: r) σ) := (soinv_run hK σ hσ).2
  have hneo : NEOInv (run K tf (i0 :: r) σ) := neoinv_run hK i0 r σ hσ
  obtain ⟨hph⟩ := hneo
  rcases hph with ⟨hni, hpend⟩ | ⟨ws, hsink, hwse, hpe2, hq, hpr⟩
  · exact absurd hpe hpend
  · have hq2 : (run K tf (i0 :: r) σ).queue = [] := hs.drained hpe
    have hlaunch : (run K tf (i0 :: r) σ).launched = i0 :: r := by
      have h3 := hs.spl
      rw [hq2] at h3
      simpa using h3
    refine ⟨?_, ws, hsink, hwse, ?_⟩
    · cases hp3 : (run K tf (i0 :: r) σ).promise with
      | pendingP => exact absurd hp3 hpr
      | resolvedP => rfl
      | rejectedP rr =>
        obtain ⟨a, hma, e, hte, hre⟩ := ho.rejSrc rr hp3
        have hla : a ∈ (run K tf (i0 :: r) σ).launched := hs.complSub a hma
        rw [hlaunch] at hla
        have h4 := hok a hla
        rw [hte] at h4
        simp [Except.isOk, Except.toBool] at h4
    · intro a hai str hstr hne2
      have hla : a ∈ (run K tf (i0 :: r) σ).launched := by rw [hlaunch]; exact hai
      rcases hs.complOrPend a hla with hc | hc
      · have hmem : Chunk.data str ∈ (run K tf (i0 :: r) σ).sink := ho.written a hc str hstr hne2
        rw [hsink] at hmem
        rcases List.mem_append.mp hmem with h1 | h1
        · exact h1
        · exact absurd (List.mem_singleton.mp h1) (by simp)
      · rw [hpe] at hc
        cases hc

/-- C2 witness: a concrete successful run over one item. -/
theorem endOfStream_exactly_once_nonempty_input_witness :
    (0 < 1 ∧ (["a"] : List String) ≠ [] ∧ Step.closeSink ∉ [Step.complete 0] ∧
      (∀ a ∈ (["a"] : List String), (tfEcho a).isOk = true) ∧
      (run 1 tfEcho ["a"] [Step.complete 0]).pending = []) ∧
    ((run 1 tfEcho ["a"] [Step.complete 0]).promise = PromiseState.resolvedP ∧
      ∃ ws, (run 1 tfEcho ["a"] [Step.complete 0]).sink = ws ++ [Chunk.eos] ∧
        Chunk.eos ∉ ws ∧
        ∀ a ∈ (["a"] : List String), ∀ str, tfEcho a = Except.ok (some str) → str ≠ "" →
          Chunk.data str ∈ ws) :=
  ⟨by decide, endOfStream_exactly_once_nonempty_input ["a"] 1 tfEcho [Step.complete 0]
    (by decide) (by decide) (by decide) (by decide) (by decide)⟩

/-- C3 counterexample: the GET handler does NOT remove the session from the
registry when it opens a stream — the registry is unchanged, so a second
GET with the same sessionId finds the session again and succeeds instead of
failing with 404. -/
theorem session_found_again_after_open :
    (GEThandler [⟨"s1", [0]⟩] (some "s1")).1 = Except.ok (⟨"s1", [(0 : Nat)]⟩ : Session Nat) ∧
    (GEThandler [⟨"s1", [0]⟩] (some "s1")).2 = [(⟨"s1", [(0 : Nat)]⟩ : Session Nat)] ∧
    (GEThandler ((GEThandler [(⟨"s1", [(0 : Nat)]⟩ : Session Nat)] (some "s1")).2)
        (some "s1")).1 = Except.ok (⟨"s1", [(0 : Nat)]⟩ : Session Nat) :=
  ⟨rfl, rfl, rfl⟩

/-- C3 amended: a session is NOT removed when the GET stream endpoint opens
a stream for it — the registry is returned unchanged, so a second GET with
the same sessionId succeeds with the same session; the session is removed
from the registry only by the stream's cancel callback (client disconnect),
via deletion. -/
theorem session_kept_on_open_removed_on_cancel {α : Type} [DecidableEq α]
    (sessions : List (Session α)) (sid : Option String) (s : Session α)
    (h : (GEThandler sessions sid).1 = Except.ok s) :
    (GEThandler sessions sid).2 = sessions ∧
    (GEThandler ((GEThandler sessions sid).2) sid).1 = Except.ok s ∧
    cancelStream sessions s = sessions.erase s := by
  have h2 : (GEThandler sessions sid).2 = sessions := by
    unfold GEThandler
    split <;> rfl
  refine ⟨h2, ?_, rfl⟩
  rw [h2]
  exact h

/-- C3 witness: a concrete registry with one stored session. -/
theorem session_kept_on_open_removed_on_cancel_witness :
    (GEThandler [(⟨"s1", [(0 : Nat)]⟩ : Session Nat)] (some "s1")).1 =
      Except.ok (⟨"s1", [(0 : Nat)]⟩ : Session Nat) ∧
    ((GEThandler [(⟨"s1", [(0 : Nat)]⟩ : Session Nat)] (some "s1")).2 =
        [(⟨"s1", [(0 : Nat)]⟩ : Session Nat)] ∧
      (GEThandler ((GEThandler [(⟨"s1", [(0 : Nat)]⟩ : Session Nat)] (some "s1")).2)
          (some "s1")).1 = Except.ok (⟨"s1", [(0 : Nat)]⟩ : Session Nat) ∧
      cancelStream [(⟨"s1", [(0 : Nat)]⟩ : Session Nat)] (⟨"s1", [(0 : Nat)]⟩ : Session Nat) =
        ([(⟨"s1", [(0 : Nat)]⟩ : Session Nat)]).erase (⟨"s1", [(0 : Nat)]⟩ : Session Nat)) :=
  ⟨rfl, session_kept_on_open_removed_on_cancel [(⟨"s1", [(0 : Nat)]⟩ : Session Nat)]
    (some "s1") (⟨"s1", [(0 : Nat)]⟩ : Session Nat) rfl⟩

/-- C4 counterexample: a run whose single transform rejects — the returned
promise rejects, but the end-of-stream chunk is nevertheless enqueued on
the sink (the finally block calls processNext, which sees the drained state
and enqueues the terminal chunk; resolve is then a no-op), refuting the
claim that no terminal chunk is enqueued for that run. -/
theorem rejected_run_still_emits_end_of_stream :
    (run 1 tfRejA ["a"] [Step.complete 0]).promise =
      PromiseState.rejectedP (RunError.transformErr ()) ∧
    (run 1 tfRejA ["a"] [Step.complete 0]).sink = [Chunk.eos] := by decide

/-- C4 amended: if any transform rejects (and its settlement is reached),
the promise returned by processConcurrently rejects; however, once the
queue and in-flight transforms drain, the end-of-stream chunk IS still
enqueued on the sink — the rejection does not suppress the terminal
write. -/
theorem transform_rejection_rejects_promise {α ε : Type} (items : List α) (K : Nat)
    (tf : α → Except ε (Option String)) (σ : List Step) (hK : 0 < K)
    (hσ : Step.closeSink ∉ σ) (herr : ∃ a ∈ items, (tf a).isOk = false)
    (hpe : (run K tf items σ).pending = []) :
    (∃ r, (run K tf items σ).promise = PromiseState.rejectedP r) ∧
    Chunk.eos ∈ (run K tf items σ).sink := by
  have hs : SInv K items (run K tf items σ) := sinv_run hK σ
  have ho : OInv tf (run K tf items σ) := (soinv_run hK σ hσ).2
  have hr : RInv tf (run K tf items σ) := rinv_run hK σ
  refine ⟨?_, ho.eosDrained hpe⟩
  obtain ⟨a, hai, hae⟩ := herr
  obtain ⟨e, hte⟩ : ∃ e, tf a = Except.error e := by
    cases hx : tf a with
    | error e2 => exact ⟨e2, rfl⟩
    | ok v => rw [hx] at hae; simp [Except.isOk, Except.toBool] at hae
  have hq2 := hs.drained hpe
  have hlaunch : (run K tf items σ).launched = items := by
    have h3 := hs.spl
    rw [hq2] at h3
    simpa using h3
  have hla : a ∈ (run K tf items σ).launched := by rw [hlaunch]; exact hai
  rcases hs.complOrPend a hla with hc | hc
  · exact hr.rejDone a hc e hte
  · rw [hpe] at hc
    cases hc

/-- C4 witness: a concrete two-item run whose first transform rejects. -/
theorem transform_rejection_rejects_promise_witness :
    (0 < 1 ∧ Step.closeSink ∉ [Step.complete 0, Step.complete 0] ∧
      (∃ a ∈ (["a", "b"] : List String), (tfRejA a).isOk = false) ∧
      (run 1 tfRejA ["a", "b"] [Step.complete 0, Step.complete 0]).pending = []) ∧
    ((∃ r, (run 1 tfRejA ["a", "b"] [Step.complete 0, Step.complete 0]).promise =
        PromiseState.rejectedP r) ∧
      Chunk.eos ∈ (run 1 tfRejA ["a", "b"] [Step.complete 0, Step.complete 0]).sink) :=
  ⟨by decide, transform_rejection_rejects_promise ["a", "b"] 1 tfRejA
    [Step.complete 0, Step.complete 0] (by decide) (by decide) (by decide) (by decide)⟩

/-- C5 counterexample: with items a then b and concurrency 1, the transform
for a rejects (settling the promise as rejected); the run then still
dequeues b, and after b settles its result chunk IS written to the sink —
refuting the claim that no further item result chunk is written after a
rejection. -/
theorem sibling_result_written_after_rejection :
    (run 1 tfRejA ["a", "b"] [Step.complete 0]).promise =
      PromiseState.rejectedP (RunError.transformErr ()) ∧
    Chunk.data "data: b\n" ∉ (run 1 tfRejA ["a", "b"] [Step.complete 0]).sink ∧
    Chunk.data "data: b\n" ∈
      (run 1 tfRejA ["a", "b"] [Step.complete 0, Step.complete 0]).sink := by decide

/-- C5 amended: after a transform rejection the processing loop is NOT
stopped: the remaining items are still dequeued (the dequeue list ends up
equal to the whole input) and every non-empty result of a fulfilled
transform is still written to the sink; only the promise's settlement
records the failure. -/
theorem processing_continues_after_rejection {α ε : Type} (items : List α) (K : Nat)
    (tf : α → Except ε (Option String)) (σ : List Step) (hK : 0 < K)
    (hσ : Step.closeSink ∉ σ) (herr : ∃ a ∈ items, (tf a).isOk = false)
    (hpe : (run K tf items σ).pending = []) :
    (run K tf items σ).launched = items ∧
    ∀ a ∈ items, ∀ str, tf a = Except.ok (some str) → str ≠ "" →
      Chunk.data str ∈ (run K tf items σ).sink := by
  have hs : SInv K items (run K tf items σ) := sinv_run hK σ
  have ho : OInv tf (run K tf items σ) := (soinv_run hK σ hσ).2
  have hq2 := hs.drained hpe
  have hlaunch : (run K tf items σ).launched = items := by
    have h3 := hs.spl
    rw [hq2] at h3
    simpa using h3
  refine ⟨hlaunch, ?_⟩
  intro a hai str hstr hne2
  have hla : a ∈ (run K tf items σ).launched := by rw [hlaunch]; exact hai
  rcases hs.complOrPend a hla with hc | hc
  · exact ho.written a hc str hstr hne2
  · rw [hpe] at hc
    cases hc

/-- C5 witness: the two-item run with a rejecting first transform — item b
is still dequeued and its result written. -/
theorem processing_continues_after_rejection_witness :
    (0 < 1 ∧ Step.closeSink ∉ [Step.complete 0, Step.complete 0] ∧
      (∃ a ∈ (["a", "b"] : List String), (tfRejA a).isOk = false) ∧
      (run 1 tfRejA ["a", "b"] [Step.complete 0, Step.complete 0]).pending = []) ∧
    ((run 1 tfRejA ["a", "b"] [Step.complete 0, Step.complete 0]).launched = ["a", "b"] ∧
      ∀ a ∈ (["a", "b"] : List String), ∀ str, tfRejA a = Except.ok (some str) → str ≠ "" →
        Chunk.data str ∈ (run 1 tfRejA ["a", "b"] [Step.complete 0, Step.complete 0]).sink) :=
  ⟨by decide, processing_continues_after_rejection ["a", "b"] 1 tfRejA
    [Step.complete 0, Step.complete 0] (by decide) (by decide) (by decide) (by decide)⟩

/-- C6 counterexample: when the channel closes (client disconnect) before
the run drains, the final processNext reaches the terminal end-of-stream
enqueue, which is NOT wrapped in any try/catch — it throws uncaught
(crashed), and the promise is left unsettled, refuting the claim that every
post-close write (the terminal write included) is a suppressed no-op. -/
theorem terminal_write_after_close_crashes :
    (run 1 tfNull ["a"] [Step.closeSink, Step.complete 0]).crashed = true ∧
    (run 1 tfNull ["a"] [Step.closeSink, Step.complete 0]).promise =
      PromiseState.pendingP := by decide

/-- C6 amended: after the channel is closed, heartbeat writes are fully
suppressed no-ops (the tick leaves the state unchanged) and an item-result
write is caught — nothing lands on the sink in a settlement step (though
the catch rejects the promise rather than ignoring the failure); only the
terminal end-of-stream write is uncaught and crashes the run. -/
theorem post_close_writes_suppressed_except_terminal {α ε : Type} (s : PState α ε)
    (K : Nat) (tf : α → Except ε (Option String)) (k : Nat) (h : s.sinkClosed = true) :
    tick s = s ∧ (completeTask K tf k s).sink = s.sink :=
  ⟨tick_closed s h, completeTask_closed_sink K tf k s h⟩

/-- C6 witness: the state reached after a client disconnect mid-run. -/
theorem post_close_writes_suppressed_except_terminal_witness :
    (run 1 tfEcho ["a"] [Step.closeSink]).sinkClosed = true ∧
    (tick (run 1 tfEcho ["a"] [Step.closeSink]) = run 1 tfEcho ["a"] [Step.closeSink] ∧
      (completeTask 1 tfEcho 0 (run 1 tfEcho ["a"] [Step.closeSink])).sink =
        (run 1 tfEcho ["a"] [Step.closeSink]).sink) :=
  ⟨by decide, post_close_writes_suppressed_except_terminal
    (run 1 tfEcho ["a"] [Step.closeSink]) 1 tfEcho 0 (by decide)⟩

/-- C7: items are dequeued from the work queue in input (FIFO) order — in
every reachable state the dequeued list followed by the remaining queue is
exactly the input list — and in the concrete scenario with items a, b, c,
concurrency 1 and the echoing transform, the sink receives the three data
lines in exactly input order followed by one end-of-stream chunk, each item
dequeued exactly once. -/
theorem fifo_dequeue_order_and_concrete_run :
    (∀ (α ε : Type) (items : List α) (K : Nat) (tf : α → Except ε (Option String))
        (σ : List Step), 0 < K →
      (run K tf items σ).launched ++ (run K tf items σ).queue = items) ∧
    (run 1 tfEcho ["a", "b", "c"] [Step.complete 0, Step.complete 0, Step.complete 0]).sink =
      [Chunk.data "data: a\n", Chunk.sep, Chunk.data "data: b\n", Chunk.sep,
        Chunk.data "data: c\n", Chunk.sep, Chunk.eos] ∧
    (run 1 tfEcho ["a", "b", "c"]
        [Step.complete 0, Step.complete 0, Step.complete 0]).launched = ["a", "b", "c"] := by
  refine ⟨?_, by decide, by decide⟩
  intro α ε items K tf σ hK
  exact (sinv_run hK σ).spl

/-- C7 witness: the FIFO fact applied at a concrete input. -/
theorem fifo_dequeue_order_and_concrete_run_witness :
    0 < 1 ∧
    (run 1 tfEcho ["a", "b", "c"] [Step.complete 0]).launched ++
      (run 1 tfEcho ["a", "b", "c"] [Step.complete 0]).queue = ["a", "b", "c"] :=
  ⟨by decide, fifo_dequeue_order_and_concrete_run.1 String Unit ["a", "b", "c"] 1 tfEcho
    [Step.complete 0] (by decide)⟩

/-- C8 counterexample: with an empty item list and concurrency 2, each of
the two initial workers sees the drained state and calls clearInterval, so
the heartbeat timer is cancelled TWICE, refuting the claim that it is
cancelled exactly once. -/
theorem clearInterval_called_twice_on_empty_input :
    (run 2 tfNull ([] : List String) []).clears = 2 := by decide

/-- C8 amended: heartbeat chunks are only enqueued while the timer is
active — the timer is inactive as soon as an end-of-stream chunk is on the
sink, and no heartbeat chunk ever follows an end-of-stream chunk; for a
NON-EMPTY input the clearInterval call happens exactly once, at the
settlement that drains the queue with no transforms in flight (with empty
input it happens once per initial worker). -/
theorem heartbeat_cleared_once_never_after_eos {α ε : Type} (items : List α) (K : Nat)
    (tf : α → Except ε (Option String)) (σ : List Step) (hK : 0 < K) :
    (items ≠ [] → (run K tf items σ).pending = [] → (run K tf items σ).clears = 1) ∧
    (Chunk.eos ∈ (run K tf items σ).sink → (run K tf items σ).timerActive = false) ∧
    hbBeforeEos (run K tf items σ).sink := by
  have hs : SInv K items (run K tf items σ) := sinv_run hK σ
  refine ⟨?_, fun hm => hs.timerEos hm, hs.hbPos⟩
  intro hne hpe
  obtain ⟨i0, r, rfl⟩ : ∃ i0 r, items = i0 :: r := by
    cases items with
    | nil => exact absurd rfl hne
    | cons a b => exact ⟨a, b, rfl⟩
  have hne2 : NEInv (run K tf (i0 :: r) σ) := neinv_run hK i0 r σ
  obtain ⟨hph⟩ := hne2
  rcases hph with ⟨hpend, hcl, hti⟩ | ⟨hpend, hq, hcl, hti⟩
  · exact absurd hpe hpend
  · exact hcl

/-- C8 witness: a concrete one-item run. -/
theorem heartbeat_cleared_once_never_after_eos_witness :
    0 < 1 ∧
    (((["a"] : List String) ≠ [] →
        (run 1 tfEcho ["a"] [Step.tick, Step.complete 0]).pending = [] →
        (run 1 tfEcho ["a"] [Step.tick, Step.complete 0]).clears = 1) ∧
      (Chunk.eos ∈ (run 1 tfEcho ["a"] [Step.tick, Step.complete 0]).sink →
        (run 1 tfEcho ["a"] [Step.tick, Step.complete 0]).timerActive = false) ∧
      hbBeforeEos (run 1 tfEcho ["a"] [Step.tick, Step.complete 0]).sink) :=
  ⟨by decide, heartbeat_cleared_once_never_after_eos ["a"] 1 tfEcho
    [Step.tick, Step.complete 0] (by decide)⟩

/-- C9: for every sequence of data messages handled by streamData, the
keyed collection ends up mapping each key to the most recently received
successfully parsed record carrying that key, with every other key's
binding preserved; and the concrete three-message scenario yields exactly
the collection with x bound to its second record and y to its record. -/
theorem streamData_last_write_wins :
    (∀ (β ε : Type) (parseData : String → Except ε (Rec β)) (msgs : List String)
        (m0 : List (String × Rec β)) (q : String),
      mapGet (streamData parseData m0 msgs) q =
        match lastRec parseData msgs q with
        | some r => some r
        | none => mapGet m0 q) ∧
    streamData pdEx [] ["x1", "x2", "y3"] = [("x", ⟨"x", 2⟩), ("y", ⟨"y", 3⟩)] :=
  ⟨fun β ε parseData msgs m0 q => streamData_get parseData msgs m0 q, by decide⟩

/-- C10: if the parser throws on an incoming message, the onmessage handler
leaves the keyed collection unchanged — store.update is invoked only after
parseData returns successfully, so a parse failure never modifies the
collection. -/
theorem streamStep_unchanged_on_parse_error {β ε : Type}
    (parseData : String → Except ε (Rec β)) (m : List (String × Rec β)) (d : String)
    (e : ε) (h : parseData d = Except.error e) : streamStep parseData m d = m := by
  unfold streamStep
  rw [h]

/-- C10 witness: the sample parser throws on an unknown payload and the
collection is unchanged. -/
theorem streamStep_unchanged_on_parse_error_witness :
    pdEx "zz" = Except.error () ∧
    streamStep pdEx [("x", ⟨"x", 1⟩)] "zz" = [("x", ⟨"x", 1⟩)] :=
  ⟨by rfl, streamStep_unchanged_on_parse_error pdEx [("x", ⟨"x", 1⟩)] "zz" () (by rfl)⟩
